import Mathlib

/-!
# Verification of `DependenceUtils.get_import_name_from_py_file`
(src/src/utils/dependence_utils.py)

Shallow embedding of the import-dependency extractor of NuitkaGUI.

The Python function, given a file path:
1. opens the file (`errors='ignore'`) and reads its content; on any read
   exception it prints one diagnostic line and returns `[]`;
2. parses the content with `ast.parse`; on `SyntaxError` it prints two
   diagnostic lines and returns `[]`; on any other exception it prints one
   diagnostic line and returns `[]`;
3. walks every node of the tree (`ast.walk`, breadth-first); for each
   `ast.Import` node it appends `alias.name.split('.')[0]` for every alias;
   for each `ast.ImportFrom` node it appends `node.module.split('.')[0]`
   when `node.module` is truthy, otherwise `alias.name.split('.')[0]` for
   every alias;
4. returns `list(set(import_names))`.

The file read and `ast.parse` belong to the Python runtime, not to this
repository, so they enter the embedding as abstract outcomes (`ReadResult`,
`ParseResult`); the syntax tree that `ast.parse` would produce is the
`PyModule` value inside a successful `ParseResult`.  Everything from the
walk onwards is translated statement by statement.
-/

/-- Python `ast.alias`: an imported dotted name and its optional `as` alias. -/
structure PyAlias where
  name : String
  asname : Option String
deriving Repr, DecidableEq

/-- The nodes of the parsed syntax tree that the extraction loop can meet.
`Import` and `ImportFrom` mirror `ast.Import` / `ast.ImportFrom`
(`module : Optional[str]`, `level : int`); every other node kind
(function bodies, `if` blocks, expressions, ...) is only a carrier of child
nodes for the walk, collapsed into `Other`. -/
inductive PyNode where
  | Import (names : List PyAlias)
  | ImportFrom (module : Option String) (names : List PyAlias) (level : Nat)
  | Other (children : List PyNode)
deriving Repr

/-- An `ast.Module`: the list of top-level statements. -/
structure PyModule where
  body : List PyNode
deriving Repr

/-- The child nodes that `ast.walk` enqueues below a node.  (`ast.walk` also
yields the `ast.alias` children of import statements; they are neither
`Import` nor `ImportFrom`, so they never contribute and are omitted.) -/
def PyNode.children : PyNode → List PyNode
  | .Import _ => []
  | .ImportFrom _ _ _ => []
  | .Other cs => cs

mutual
/-- Number of nodes in a subtree (termination measure for the walk). -/
def PyNode.size : PyNode → Nat
  | .Import _ => 1
  | .ImportFrom _ _ _ => 1
  | .Other cs => 1 + sizeList cs

/-- Total number of nodes in a forest. -/
def sizeList : List PyNode → Nat
  | [] => 0
  | n :: rest => PyNode.size n + sizeList rest
end

theorem sizeList_append (a b : List PyNode) :
    sizeList (a ++ b) = sizeList a + sizeList b := by
  induction a with
  | nil => simp [sizeList]
  | cons n rest ih => simp [sizeList, ih]; omega

theorem sizeList_children_lt (n : PyNode) : sizeList n.children < n.size := by
  cases n <;> simp [PyNode.children, PyNode.size, sizeList]

/-- `ast.walk`: breadth-first traversal of a queue of nodes, yielding every
node of every subtree. -/
def walkList : List PyNode → List PyNode
  | [] => []
  | n :: rest => n :: walkList (rest ++ n.children)
termination_by q => sizeList q
decreasing_by
  simp only [sizeList_append, sizeList]
  have := sizeList_children_lt n
  omega

/-- Python `s.split('.')[0]`: the longest prefix of `s` before the first
`'.'` (for a dot-free `s`, `s` itself; for `s` starting with `'.'` or empty,
the empty string — exactly the behaviour of `split`'s first element). -/
def firstSegment (s : String) : String :=
  ⟨s.data.takeWhile (fun c => c ≠ '.')⟩

/-- The names one node appends to `import_names` in the loop body:
the `isinstance(node, ast.Import)` branch, then the
`isinstance(node, ast.ImportFrom)` branch with its `if node.module:` test
(Python truthiness: `None` and `""` are falsy), else nothing. -/
def nodeContrib : PyNode → List String
  | .Import names => names.map (fun al => firstSegment al.name)
  | .ImportFrom module names _level =>
      match module with
      | some m =>
          if !m.isEmpty then [firstSegment m]
          else names.map (fun al => firstSegment al.name)
      | none => names.map (fun al => firstSegment al.name)
  | .Other _ => []

/-- Steps 3–4 on a successfully parsed tree: collect the contributions in
walk order, then `list(set(import_names))`.  A Python `set` iterates in an
unspecified order, so `list(set(l))` is faithfully rendered as `l.dedup`
(same elements, no duplicates; order carries no meaning). -/
def extractImports (tree : PyModule) : List String :=
  ((walkList tree.body).flatMap nodeContrib).dedup

/-- Outcome of `file_path.open(...).read()` — the Python runtime's part of
step 1.  `errors='ignore'` decoding means a successful read always yields a
string; any `OSError` etc. is the `error` case with the exception text. -/
inductive ReadResult where
  | ok (content : String)
  | error (msg : String)

/-- Outcome of `ast.parse(file_content)` — the Python runtime's part of
step 2, with the two `except` arms of the source distinguished. -/
inductive ParseResult where
  | ok (tree : PyModule)
  | syntaxError (msg : String)
  | error (msg : String)

/-- What a call returns plus what it printed: the source's `print` calls on
the failure paths become `logs` entries, one entry per `print`. -/
structure ExtractOutput where
  imports : List String
  logs : List String
deriving Repr, DecidableEq

/-- `DependenceUtils.get_import_name_from_py_file`, with the runtime's read
and parse steps supplied as outcomes (`readRes` is what reading `file_path`
produced; `parseFn` is `ast.parse` as a function of the content read). -/
def get_import_name_from_py_file (file_path : String) (readRes : ReadResult)
    (parseFn : String → ParseResult) : ExtractOutput :=
  match readRes with
  | .error e =>
      ⟨[], ["[DependenceUtils] 读取失败: " ++ file_path ++ " -> " ++ e]⟩
  | .ok file_content =>
      match parseFn file_content with
      | .syntaxError e =>
          ⟨[], ["[DependenceUtils] 跳过语法错误文件: " ++ file_path,
                "  -> " ++ e]⟩
      | .error e =>
          ⟨[], ["[DependenceUtils] AST解析异常: " ++ file_path ++ " -> " ++ e]⟩
      | .ok tree => ⟨extractImports tree, []⟩

/-- The file system and parser seen by a call, for expressing sequential
calls: the content each path currently reads to, and `ast.parse`.  The
extractor opens the file read-only and writes nothing, so a call leaves the
world unchanged. -/
structure World where
  fs : String → ReadResult
  parseFn : String → ParseResult

/-- One invocation of the extractor against the world: the function's
result together with the world after the call (unchanged — the operation
performs no writes). -/
def callExtract (w : World) (file_path : String) : ExtractOutput × World :=
  (get_import_name_from_py_file file_path (w.fs file_path) w.parseFn, w)

/-! ## Well-formedness of parsed import names

`ast.parse` only produces import statements whose dotted names are
non-empty sequences of identifiers separated by single dots; in particular
every such name is non-empty and does not start with `'.'`.  This is the
"well-formed input" premise of the spec, stated as an executable predicate
on the names an import node carries. -/

/-- A dotted name as `ast.parse` emits it: non-empty, not starting with a
dot. -/
def goodName (s : String) : Bool :=
  !s.data.isEmpty && s.data.head? != some '.'

/-- Every name the extraction loop could split on this node is a
well-formed dotted name. -/
def nodeNamesOK : PyNode → Bool
  | .Import names => names.all (fun al => goodName al.name)
  | .ImportFrom module names _ =>
      (match module with
       | some m => m.isEmpty || goodName m
       | none => true) && names.all (fun al => goodName al.name)
  | .Other _ => true

/-! ## Basic lemmas about the walk and the extraction -/

theorem mem_walkList_of_mem (q : List PyNode) (n : PyNode) (h : n ∈ q) :
    n ∈ walkList q := by
  induction q using walkList.induct with
  | case1 => simp at h
  | case2 m rest ih =>
    rw [walkList]
    rcases List.mem_cons.mp h with h1 | h2
    · exact h1 ▸ List.mem_cons_self _ _
    · exact List.mem_cons_of_mem _ (ih (List.mem_append_left _ h2))

theorem mem_extractImports {tree : PyModule} {x : String} :
    x ∈ extractImports tree ↔ ∃ n ∈ walkList tree.body, x ∈ nodeContrib n := by
  simp [extractImports, List.mem_dedup, List.mem_flatMap]

theorem firstSegment_data (s : String) :
    (firstSegment s).data = s.data.takeWhile (fun c => c ≠ '.') := rfl

/-- The first dot-separated segment never contains a dot. -/
theorem firstSegment_no_dot (s : String) : ('.' : Char) ∉ (firstSegment s).data := by
  intro h
  rw [firstSegment_data] at h
  have := List.mem_takeWhile_imp h
  simp at this

/-- For a well-formed dotted name, the first segment is non-empty. -/
theorem firstSegment_ne_empty {s : String} (h : goodName s = true) :
    firstSegment s ≠ "" := by
  intro hc
  have hdata : (firstSegment s).data = [] := by rw [hc]
  rw [firstSegment_data] at hdata
  rcases hd : s.data with _ | ⟨c, cs⟩
  · simp [goodName, hd] at h
  · rw [hd] at hdata
    simp [goodName, hd] at h
    simp [List.takeWhile, h] at hdata

/-- Everything a node contributes is the first segment of one of its names
(module name or alias name). -/
theorem nodeContrib_shape {n : PyNode} {x : String} (h : x ∈ nodeContrib n) :
    ∃ s, x = firstSegment s ∧
      (nodeNamesOK n = true → goodName s = true) := by
  cases n with
  | Import names =>
    simp only [nodeContrib, List.mem_map] at h
    obtain ⟨al, hal, rfl⟩ := h
    exact ⟨al.name, rfl, fun hok => by
      simp only [nodeNamesOK, List.all_eq_true] at hok
      exact hok al hal⟩
  | ImportFrom module names lvl =>
    cases module with
    | none =>
      simp only [nodeContrib, List.mem_map] at h
      obtain ⟨al, hal, rfl⟩ := h
      exact ⟨al.name, rfl, fun hok => by
        simp only [nodeNamesOK, List.all_eq_true, Bool.and_eq_true] at hok
        exact hok.2 al hal⟩
    | some m =>
      by_cases hm : m.isEmpty
      · simp [nodeContrib, hm] at h
        obtain ⟨al, hal, rfl⟩ := h
        exact ⟨al.name, rfl, fun hok => by
          simp only [nodeNamesOK, List.all_eq_true, Bool.and_eq_true] at hok
          exact hok.2 al hal⟩
      · have hm' : m.isEmpty = false := by
          cases he : m.isEmpty
          · rfl
          · exact absurd he hm
        simp [nodeContrib, hm'] at h
        subst h
        refine ⟨m, rfl, fun hok => ?_⟩
        simp only [nodeNamesOK, Bool.and_eq_true] at hok
        rcases Bool.or_eq_true _ _ |>.mp hok.1 with h1 | h2
        · rw [hm'] at h1; exact absurd h1 (by simp)
        · exact h2
  | Other cs => simp [nodeContrib] at h

/-- A list whose elements are all `a`, and which is non-empty, dedups to
`[a]`. -/
theorem dedup_eq_single {α : Type} [DecidableEq α] (a : α) :
    ∀ l : List α, a ∈ l → (∀ x ∈ l, x = a) → l.dedup = [a] := by
  intro l
  induction l with
  | nil => intro h; simp at h
  | cons x xs ih =>
    intro _ hall
    have hx : x = a := hall x (List.mem_cons_self _ _)
    cases xs with
    | nil => simp [hx]
    | cons y ys =>
      have hy : y = a := hall y (List.mem_cons_of_mem _ (List.mem_cons_self _ _))
      have hxm : x ∈ y :: ys := by rw [hx, hy]; exact List.mem_cons_self _ _
      rw [List.dedup_cons_of_mem hxm]
      exact ih (hy ▸ List.mem_cons_self _ _) (fun z hz => hall z (List.mem_cons_of_mem _ hz))

/-! ## Structure-preserving edits of the tree (for the level / alias claims)

Two tree transformations that rewrite exactly one field the extraction loop
never reads: the relative-import `level` of every `ImportFrom`, and the
`asname` of every alias. -/

/-- Rewrite an alias's `as`-name, keeping the imported name. -/
def PyAlias.setAs (g : Option String → Option String) (al : PyAlias) : PyAlias :=
  ⟨al.name, g al.asname⟩

mutual
/-- Rewrite every `ImportFrom` level in a subtree by `g`. -/
def setLevels (g : Nat → Nat) : PyNode → PyNode
  | .Import names => .Import names
  | .ImportFrom m names lvl => .ImportFrom m names (g lvl)
  | .Other cs => .Other (setLevelsList g cs)

/-- `setLevels` on every node of a forest. -/
def setLevelsList (g : Nat → Nat) : List PyNode → List PyNode
  | [] => []
  | n :: rest => setLevels g n :: setLevelsList g rest
end

mutual
/-- Rewrite every alias's `asname` in a subtree by `g`. -/
def setAsnames (g : Option String → Option String) : PyNode → PyNode
  | .Import names => .Import (names.map (PyAlias.setAs g))
  | .ImportFrom m names lvl => .ImportFrom m (names.map (PyAlias.setAs g)) lvl
  | .Other cs => .Other (setAsnamesList g cs)

/-- `setAsnames` on every node of a forest. -/
def setAsnamesList (g : Option String → Option String) :
    List PyNode → List PyNode
  | [] => []
  | n :: rest => setAsnames g n :: setAsnamesList g rest
end

/-- `setLevels` applied to a whole module. -/
def PyModule.setLevels (g : Nat → Nat) (tree : PyModule) : PyModule :=
  ⟨setLevelsList g tree.body⟩

/-- `setAsnames` applied to a whole module. -/
def PyModule.setAsnames (g : Option String → Option String)
    (tree : PyModule) : PyModule :=
  ⟨setAsnamesList g tree.body⟩

theorem setLevelsList_eq_map (g : Nat → Nat) (l : List PyNode) :
    setLevelsList g l = l.map (setLevels g) := by
  induction l with
  | nil => rfl
  | cons n rest ih => simp [setLevelsList, ih]

theorem setAsnamesList_eq_map (g : Option String → Option String)
    (l : List PyNode) :
    setAsnamesList g l = l.map (setAsnames g) := by
  induction l with
  | nil => rfl
  | cons n rest ih => simp [setAsnamesList, ih]

theorem children_setLevels (g : Nat → Nat) (n : PyNode) :
    (setLevels g n).children = n.children.map (setLevels g) := by
  cases n <;> simp [setLevels, PyNode.children, setLevelsList_eq_map]

theorem children_setAsnames (g : Option String → Option String) (n : PyNode) :
    (setAsnames g n).children = n.children.map (setAsnames g) := by
  cases n <;> simp [setAsnames, PyNode.children, setAsnamesList_eq_map]

/-- The walk commutes with any node map that maps children to children. -/
theorem walkList_map (F : PyNode → PyNode)
    (hF : ∀ n, (F n).children = n.children.map F) :
    ∀ q : List PyNode, walkList (q.map F) = (walkList q).map F := by
  intro q
  induction q using walkList.induct with
  | case1 => simp [walkList]
  | case2 n rest ih =>
    rw [List.map_cons, walkList, walkList, hF, ← List.map_append, ih]
    rfl

theorem nodeContrib_setLevels (g : Nat → Nat) (n : PyNode) :
    nodeContrib (setLevels g n) = nodeContrib n := by
  cases n with
  | Import names => rfl
  | ImportFrom m names lvl => cases m <;> rfl
  | Other cs => rfl

theorem nodeContrib_setAsnames (g : Option String → Option String)
    (n : PyNode) : nodeContrib (setAsnames g n) = nodeContrib n := by
  cases n with
  | Import names => simp [setAsnames, nodeContrib, PyAlias.setAs]
  | ImportFrom m names lvl =>
    cases m with
    | none => simp [setAsnames, nodeContrib, PyAlias.setAs]
    | some s => by_cases hs : s.isEmpty <;>
        simp [setAsnames, nodeContrib, PyAlias.setAs, hs]
  | Other cs => rfl

theorem extractImports_setLevels (g : Nat → Nat) (tree : PyModule) :
    extractImports (tree.setLevels g) = extractImports tree := by
  unfold extractImports PyModule.setLevels
  rw [setLevelsList_eq_map,
    walkList_map (setLevels g) (children_setLevels g),
    List.flatMap_map]
  simp [nodeContrib_setLevels]

theorem extractImports_setAsnames (g : Option String → Option String)
    (tree : PyModule) :
    extractImports (tree.setAsnames g) = extractImports tree := by
  unfold extractImports PyModule.setAsnames
  rw [setAsnamesList_eq_map,
    walkList_map (setAsnames g) (children_setAsnames g),
    List.flatMap_map]
  simp [nodeContrib_setAsnames]

/-- A walked `from m import ...` node with a non-empty module name puts the
module's first segment into the result. -/
theorem mem_extract_of_module {tree : PyModule} {m : String}
    {names : List PyAlias} {lvl : Nat}
    (hmem : PyNode.ImportFrom (some m) names lvl ∈ walkList tree.body)
    (hm : m ≠ "") :
    firstSegment m ∈ extractImports tree := by
  apply mem_extractImports.mpr
  refine ⟨_, hmem, ?_⟩
  have hm' : m.isEmpty = false := by
    cases he : m.isEmpty
    · rfl
    · exact absurd ((String.isEmpty_iff m).mp he) hm
  simp [nodeContrib, hm']

/-- A walked `from . import ...` node (no module) puts the first segment of
each imported name into the result. -/
theorem mem_extract_of_relative {tree : PyModule} {names : List PyAlias}
    {lvl : Nat} {al : PyAlias}
    (hmem : PyNode.ImportFrom none names lvl ∈ walkList tree.body)
    (hal : al ∈ names) :
    firstSegment al.name ∈ extractImports tree := by
  apply mem_extractImports.mpr
  refine ⟨_, hmem, ?_⟩
  simp only [nodeContrib]
  exact List.mem_map_of_mem _ hal

/-! ## The claims -/

/-- C1: for every input path, read outcome and parse outcome,
`get_import_name_from_py_file` never propagates a failure: it always
returns a value, and every failure mode (read failure, syntax error, any
other parse failure) degrades to an empty result plus a logged
diagnostic. -/
theorem get_import_never_raises (fp : String) (r : ReadResult)
    (p : String → ParseResult) :
    (∃ c tree, r = ReadResult.ok c ∧ p c = ParseResult.ok tree ∧
        get_import_name_from_py_file fp r p = ⟨extractImports tree, []⟩) ∨
    ((get_import_name_from_py_file fp r p).imports = [] ∧
     (get_import_name_from_py_file fp r p).logs ≠ []) := by
  cases r with
  | error e => right; simp [get_import_name_from_py_file]
  | ok c =>
    cases hp : p c with
    | ok tree =>
      left
      exact ⟨c, tree, rfl, hp, by simp [get_import_name_from_py_file, hp]⟩
    | syntaxError e => right; simp [get_import_name_from_py_file, hp]
    | error e => right; simp [get_import_name_from_py_file, hp]

/-- C2: every string in the result of a successful extraction is a simple
identifier: it contains no dot, and when every import name in the parsed
tree is a well-formed dotted name (as `ast.parse` guarantees), it is not
the empty string. -/
theorem extract_simple_identifiers (tree : PyModule) :
    (∀ x ∈ extractImports tree, ('.' : Char) ∉ x.data) ∧
    ((∀ n ∈ walkList tree.body, nodeNamesOK n = true) →
      ∀ x ∈ extractImports tree, x ≠ "") := by
  constructor
  · intro x hx
    obtain ⟨n, _, hc⟩ := mem_extractImports.mp hx
    obtain ⟨s, rfl, -⟩ := nodeContrib_shape hc
    exact firstSegment_no_dot s
  · intro hok x hx
    obtain ⟨n, hn, hc⟩ := mem_extractImports.mp hx
    obtain ⟨s, rfl, hgood⟩ := nodeContrib_shape hc
    exact firstSegment_ne_empty (hgood (hok n hn))

/-- Witness for C2 on a concrete file
(`import os` / `from pathlib import Path` / `from . import helper`). -/
theorem extract_simple_identifiers_witness :
    ∀ x ∈ extractImports ⟨[.Import [⟨"os", none⟩],
        .ImportFrom (some "pathlib") [⟨"Path", none⟩] 0,
        .ImportFrom none [⟨"helper", none⟩] 1]⟩, x ≠ "" :=
  (extract_simple_identifiers _).2 (by
    intro n hn
    simp [walkList, PyNode.children] at hn
    rcases hn with rfl | rfl | rfl <;> decide)

/-- C3: for every input (every path, read outcome and parse outcome) the
returned collection contains no duplicate entries. -/
theorem get_import_result_nodup (fp : String) (r : ReadResult)
    (p : String → ParseResult) :
    (get_import_name_from_py_file fp r p).imports.Nodup := by
  cases r with
  | error e => simp [get_import_name_from_py_file]
  | ok c =>
    cases hp : p c <;>
      simp [get_import_name_from_py_file, hp, extractImports,
        List.nodup_dedup]

/-- C4: when every import statement in the tree is a plain `import` whose
dotted names all start with segment `a` (e.g. `import a`, `import a.b`,
`import a.b.c`), and at least one name is imported, the result is exactly
the singleton `[a]`. -/
theorem plain_imports_only_singleton (tree : PyModule) (a : String)
    (hNoFrom : ∀ m names lvl,
        PyNode.ImportFrom m names lvl ∉ walkList tree.body)
    (hAll : ∀ names, PyNode.Import names ∈ walkList tree.body →
        ∀ al ∈ names, firstSegment al.name = a)
    (hEx : ∃ names al, PyNode.Import names ∈ walkList tree.body ∧ al ∈ names) :
    extractImports tree = [a] := by
  unfold extractImports
  apply dedup_eq_single
  · obtain ⟨names, al, hmem, hal⟩ := hEx
    rw [List.mem_flatMap]
    refine ⟨.Import names, hmem, ?_⟩
    rw [← hAll names hmem al hal]
    simp only [nodeContrib]
    exact List.mem_map_of_mem _ hal
  · intro x hx
    rw [List.mem_flatMap] at hx
    obtain ⟨n, hn, hc⟩ := hx
    cases n with
    | Import names =>
      simp only [nodeContrib, List.mem_map] at hc
      obtain ⟨al, hal, rfl⟩ := hc
      exact hAll names hn al hal
    | ImportFrom m names lvl => exact absurd hn (hNoFrom m names lvl)
    | Other cs => simp [nodeContrib] at hc

/-- Witness for C4 on the concrete file
`import a` / `import a.b` / `import a.b.c`. -/
theorem plain_imports_only_singleton_witness :
    extractImports ⟨[.Import [⟨"a", none⟩], .Import [⟨"a.b", none⟩],
      .Import [⟨"a.b.c", none⟩]]⟩ = ["a"] := by
  apply plain_imports_only_singleton
  · intro m names lvl h
    simp [walkList, PyNode.children] at h
  · intro names hmem al hal
    simp [walkList, PyNode.children] at hmem
    rcases hmem with rfl | rfl | rfl <;> (simp at hal; subst hal; decide)
  · exact ⟨[⟨"a", none⟩], ⟨"a", none⟩,
      by simp [walkList, PyNode.children], by simp⟩

/-- C5: a `from X import ...` statement with a (truthy) named module `X`
contributes `X`'s first dot-separated segment; a file consisting of
`from a.b import c` yields exactly `["a"]`. -/
theorem importFrom_named_module_contributes :
    (∀ (tree : PyModule) (m : String) (names : List PyAlias) (lvl : Nat),
        PyNode.ImportFrom (some m) names lvl ∈ walkList tree.body → m ≠ "" →
        firstSegment m ∈ extractImports tree) ∧
    extractImports ⟨[.ImportFrom (some "a.b") [⟨"c", none⟩] 0]⟩ = ["a"] := by
  constructor
  · intro tree m names lvl hmem hm
    exact mem_extract_of_module hmem hm
  · unfold extractImports
    rw [show walkList [PyNode.ImportFrom (some "a.b") [⟨"c", none⟩] 0] =
        [PyNode.ImportFrom (some "a.b") [⟨"c", none⟩] 0] from by
      simp [walkList, PyNode.children]]
    decide

/-- Witness for C5's general part: `from a.b import c` puts `a` in the
result. -/
theorem importFrom_named_module_contributes_witness :
    firstSegment "a.b" ∈
      extractImports ⟨[.ImportFrom (some "a.b") [⟨"c", none⟩] 0]⟩ :=
  importFrom_named_module_contributes.1 _ "a.b" [⟨"c", none⟩] 0
    (by simp [walkList, PyNode.children]) (by decide)

/-- C6: a relative import with no named module (`from . import ...`,
`from .. import ...`) contributes each imported name's first
dot-separated segment: `from . import c` alone yields `["c"]` and
`from .. import c, d` alone yields `["c", "d"]`. -/
theorem relative_import_contributes_each_name :
    (∀ (tree : PyModule) (names : List PyAlias) (lvl : Nat) (al : PyAlias),
        PyNode.ImportFrom none names lvl ∈ walkList tree.body →
        al ∈ names → firstSegment al.name ∈ extractImports tree) ∧
    extractImports ⟨[.ImportFrom none [⟨"c", none⟩] 1]⟩ = ["c"] ∧
    extractImports ⟨[.ImportFrom none [⟨"c", none⟩, ⟨"d", none⟩] 2]⟩ =
      ["c", "d"] := by
  refine ⟨?_, ?_, ?_⟩
  · intro tree names lvl al hmem hal
    exact mem_extract_of_relative hmem hal
  · unfold extractImports
    rw [show walkList [PyNode.ImportFrom none [⟨"c", none⟩] 1] =
        [PyNode.ImportFrom none [⟨"c", none⟩] 1] from by
      simp [walkList, PyNode.children]]
    decide
  · unfold extractImports
    rw [show walkList [PyNode.ImportFrom none [⟨"c", none⟩, ⟨"d", none⟩] 2] =
        [PyNode.ImportFrom none [⟨"c", none⟩, ⟨"d", none⟩] 2] from by
      simp [walkList, PyNode.children]]
    decide

/-- Witness for C6's general part: `from . import c` puts `c` in the
result. -/
theorem relative_import_contributes_each_name_witness :
    firstSegment "c" ∈ extractImports ⟨[.ImportFrom none [⟨"c", none⟩] 1]⟩ :=
  relative_import_contributes_each_name.1 _ [⟨"c", none⟩] 1 ⟨"c", none⟩
    (by simp [walkList, PyNode.children]) (by simp)

/-- C7 counterexample: on a file whose text hits the `SyntaxError` branch,
the source executes two `print` calls (the file-identifying line and the
`  -> {e}` detail line), so the claim's "one logged diagnostic" fails at
print granularity: the call logs two lines, not one. -/
theorem syntax_error_logs_two_lines_not_one :
    ¬ ((get_import_name_from_py_file "broken.py" (ReadResult.ok "x = (")
        (fun _ => ParseResult.syntaxError "never closed")).logs.length = 1) := by
  decide

/-- C7 amended: an unreadable path returns the empty result, raises no
failure and emits exactly one logged line; a file whose text fails to
parse returns the empty result, raises no failure and emits exactly two
logged lines, the first of which identifies the file. -/
theorem failure_paths_exact_logs (fp : String) (r : ReadResult)
    (p : String → ParseResult) :
    (∀ e, r = ReadResult.error e →
        get_import_name_from_py_file fp r p =
          ⟨[], ["[DependenceUtils] 读取失败: " ++ fp ++ " -> " ++ e]⟩) ∧
    (∀ c e, r = ReadResult.ok c → p c = ParseResult.syntaxError e →
        get_import_name_from_py_file fp r p =
          ⟨[], ["[DependenceUtils] 跳过语法错误文件: " ++ fp,
                "  -> " ++ e]⟩) := by
  constructor
  · rintro e rfl; rfl
  · rintro c e rfl hp
    simp [get_import_name_from_py_file, hp]

/-- Witness for C7's amended claim at one unreadable path and one
syntactically invalid file. -/
theorem failure_paths_exact_logs_witness :
    get_import_name_from_py_file "gone.py" (ReadResult.error "ENOENT")
        (fun _ => ParseResult.ok ⟨[]⟩) =
      ⟨[], ["[DependenceUtils] 读取失败: gone.py -> ENOENT"]⟩ ∧
    get_import_name_from_py_file "broken.py" (ReadResult.ok "x = (")
        (fun _ => ParseResult.syntaxError "never closed") =
      ⟨[], ["[DependenceUtils] 跳过语法错误文件: broken.py",
            "  -> never closed"]⟩ :=
  ⟨((failure_paths_exact_logs "gone.py" (ReadResult.error "ENOENT")
      (fun _ => ParseResult.ok ⟨[]⟩)).1 "ENOENT" rfl).trans (by decide),
   ((failure_paths_exact_logs "broken.py" (ReadResult.ok "x = (")
      (fun _ => ParseResult.syntaxError "never closed")).2 "x = ("
      "never closed" rfl rfl).trans (by decide)⟩

/-- C8: the operation is deterministic and stateless: a call leaves the
world (file contents, parser) unchanged, and a second call on the same
unmodified file returns the identical result — in particular the same set
of names. -/
theorem repeated_call_same_result (w : World) (fp : String) :
    (callExtract ((callExtract w fp).2) fp).1.imports.toFinset =
      (callExtract w fp).1.imports.toFinset ∧
    (callExtract ((callExtract w fp).2) fp).1 = (callExtract w fp).1 ∧
    (callExtract w fp).2 = w :=
  ⟨rfl, rfl, rfl⟩

/-- C9: the extraction never consults the relative-import `level` of a
`from ... import ...` node: rewriting every level arbitrarily leaves the
result unchanged, and a node with a named module contributes the module's
first segment whatever its level — e.g. `from .sibling import x`
(module `sibling`, level 1) contributes `sibling`. -/
theorem import_level_never_consulted :
    (∀ (g : Nat → Nat) (tree : PyModule),
        extractImports (tree.setLevels g) = extractImports tree) ∧
    (∀ (tree : PyModule) (m : String) (names : List PyAlias) (lvl : Nat),
        PyNode.ImportFrom (some m) names lvl ∈ walkList tree.body → m ≠ "" →
        firstSegment m ∈ extractImports tree) ∧
    extractImports ⟨[.ImportFrom (some "sibling") [⟨"x", none⟩] 1]⟩ =
      ["sibling"] := by
  refine ⟨extractImports_setLevels, ?_, ?_⟩
  · intro tree m names lvl hmem hm
    exact mem_extract_of_module hmem hm
  · unfold extractImports
    rw [show walkList [PyNode.ImportFrom (some "sibling") [⟨"x", none⟩] 1] =
        [PyNode.ImportFrom (some "sibling") [⟨"x", none⟩] 1] from by
      simp [walkList, PyNode.children]]
    decide

/-- Witness for C9's general part: `from .sibling import x` puts `sibling`
in the result. -/
theorem import_level_never_consulted_witness :
    firstSegment "sibling" ∈
      extractImports ⟨[.ImportFrom (some "sibling") [⟨"x", none⟩] 1]⟩ :=
  import_level_never_consulted.2.1 _ "sibling" [⟨"x", none⟩] 1
    (by simp [walkList, PyNode.children]) (by decide)

/-- C10: `as`-aliases never affect the result: rewriting every alias's
`asname` arbitrarily leaves the result unchanged, and on concrete files
`import a.b as z` and `from a import b as z` the result is `["a"]` — the
alias `z` never appears. -/
theorem asname_never_affects_result :
    (∀ (g : Option String → Option String) (tree : PyModule),
        extractImports (tree.setAsnames g) = extractImports tree) ∧
    extractImports ⟨[.Import [⟨"a.b", some "z"⟩]]⟩ = ["a"] ∧
    extractImports ⟨[.ImportFrom (some "a") [⟨"b", some "z"⟩] 0]⟩ = ["a"] := by
  refine ⟨extractImports_setAsnames, ?_, ?_⟩
  · unfold extractImports
    rw [show walkList [PyNode.Import [⟨"a.b", some "z"⟩]] =
        [PyNode.Import [⟨"a.b", some "z"⟩]] from by
      simp [walkList, PyNode.children]]
    decide
  · unfold extractImports
    rw [show walkList [PyNode.ImportFrom (some "a") [⟨"b", some "z"⟩] 0] =
        [PyNode.ImportFrom (some "a") [⟨"b", some "z"⟩] 0] from by
      simp [walkList, PyNode.children]]
    decide
